import Mathlib

/-
Verification of the work-stealing deque of `include/deque.hpp`.

Shallow embedding conventions:
* C++ `long` indices (`top`, `bottom`, buffer ids) are modelled as `Int`;
  the spec states that these counters never wrap, so unbounded integers
  are faithful for every claim considered here.
* A `Buffer<T>` is an inductive value holding its id, `log_size`, the
  `segment` storage (a total function from slot numbers, standing for the
  raw `new T[1 << log_size]` array; unwritten cells hold the unspecified
  value `default`), and the `next` pointer set by `resize`.
* `Buffer::resize` mutates `this->next` and returns the new buffer; it is
  modelled as returning the pair (updated original, new buffer).
* The owner-private `unlinked` pointer together with the `next` links forms
  a singly linked chain ending at the current buffer.  At the deque level
  this chain is modelled as a `List (Buffer T)` in traversal order
  (`[]` = null pointer); `delete` of a chain node is modelled by dropping
  it from the list.  The reclamation walk reads only `id()` and
  `next_buffer()` of chain nodes, so the list order carries exactly the
  information the code uses.
* `reclaim_buffers`'s final loop tests `unlinked->id() < min_id` with no
  null check; running the test on a null pointer is undefined behaviour in
  the source, modelled by returning `none` (`reclaim_loop [] = none`).
  Operations that call it through `push_bottom`/`pop_bottom` therefore
  return `Option`.
* All operations are modelled in their sequential (uncontended) semantics:
  loads read the current state, CAS succeeds, fences are no-ops.  This is
  the setting of the claims about push/pop/steal orderings.
* C++ `%` and `/` on the nonnegative operands occurring here agree with
  Lean's `Int.emod` / `Int.ediv`, and `1 << k` is `2 ^ k`.
-/

/-- Model of `Buffer<T>`: id, log_size, segment storage, next pointer. -/
inductive Buffer (T : Type) : Type where
  | mk (id_ : Int) (log_size : Nat) (segment : Nat → T) (next : Option (Buffer T)) : Buffer T

/-- Accessor for the `id_` field (C++ getter `id()`). -/
def Buffer.id_ {T : Type} : Buffer T → Int
  | .mk i _ _ _ => i

/-- Accessor for the `log_size` field. -/
def Buffer.log_size {T : Type} : Buffer T → Nat
  | .mk _ ls _ _ => ls

/-- Accessor for the `segment` storage. -/
def Buffer.segment {T : Type} : Buffer T → Nat → T
  | .mk _ _ seg _ => seg

/-- Accessor for the `next` field (C++ getter `next_buffer()`). -/
def Buffer.next_buffer {T : Type} : Buffer T → Option (Buffer T)
  | .mk _ _ _ nx => nx

/-- `Buffer::size()`, i.e. `1 << log_size`. -/
def Buffer.size {T : Type} (a : Buffer T) : Int := (2 : Int) ^ a.log_size

/-- `Buffer::get(i)`: `segment[i % size()]`. -/
def Buffer.get {T : Type} (a : Buffer T) (i : Int) : T :=
  a.segment ((i % a.size).toNat)

/-- `Buffer::put(i, item)`: `segment[i % size()] = item`. -/
def Buffer.put {T : Type} (a : Buffer T) (i : Int) (v : T) : Buffer T :=
  match a with
  | .mk idv ls seg nx =>
      .mk idv ls (fun m => if m = (i % (2 : Int) ^ ls).toNat then v else seg m) nx

/-- Replace the `next` field (the `next = buffer;` assignment in `resize`). -/
def Buffer.with_next {T : Type} (a : Buffer T) (nx : Option (Buffer T)) : Buffer T :=
  match a with
  | .mk idv ls seg _ => .mk idv ls seg nx

/-- The copy loop of `resize`: `for (i = t; i < b; ++i) buffer->put(i, get(i));`
iterated as `n` steps starting at index `t`. -/
def Buffer.copyRange {T : Type} (src : Buffer T) : Buffer T → Int → Nat → Buffer T
  | dst, _, 0 => dst
  | dst, t, n + 1 => Buffer.copyRange src (dst.put t (src.get t)) (t + 1) n

/-- `Buffer::resize(b, t, delta)`: allocate a buffer of capacity
`2 ^ (log_size + delta)` and id `id_ + 1`, copy indices `[t, b)`, set
`this->next` to it and return it.  The result pair is
(original with `next` set, new buffer). -/
def Buffer.resize {T : Type} [Inhabited T] (a : Buffer T) (b t : Int) (delta : Int) :
    Buffer T × Buffer T :=
  let nb := Buffer.copyRange a
    (Buffer.mk (a.id_ + 1) (((a.log_size : Int) + delta).toNat) (fun _ => default) none)
    t (b - t).toNat
  (a.with_next (some nb), nb)

/-- `Deque::log_initial_size = 4` (initial capacity 16). -/
def log_initial_size : Nat := 4

/-- Model of a `buffer_tls` thief record (the `next` registry link is
modelled by the position in the registry list). -/
structure buffer_tls where
  id_last_used : Int
  was_idle : Bool

/-- `Reclaimer::register_thread()`: push a fresh record
`buffer_tls ((0), (true), nullptr)` at the head of the registry list
(the CAS loop succeeds at once in the sequential model). -/
def register_thread (regs : List buffer_tls) : List buffer_tls :=
  { id_last_used := 0, was_idle := true } :: regs

/-- The registry walk of `reclaim_buffers`: starting from
`min_id = new_buffer->id()`, fold over the records; a record with
`was_idle` set is skipped, otherwise `min_id = min(min_id, id_last_used)`. -/
def reclaim_min_id (start : Int) (regs : List buffer_tls) : Int :=
  regs.foldl (fun m r => if r.was_idle then m else min m r.id_last_used) start

/-- The final loop of `reclaim_buffers`:
`while (unlinked->id() < min_id) (free unlinked; unlinked = unlinked->next_buffer())`.
The loop has no null test; reaching the end of the chain means the C++
code dereferences a null pointer, modelled as `none`. -/
def reclaim_loop {T : Type} (m : Int) : List (Buffer T) → Option (List (Buffer T))
  | [] => none
  | c :: rest => if c.id_ < m then reclaim_loop m rest else some (c :: rest)

/-- `Deque::reclaim_buffers(new_buffer)` acting on the registry and the
unlinked chain; returns the surviving chain (the new `unlinked` pointer). -/
def reclaim_buffers {T : Type} (new_buffer : Buffer T) (regs : List buffer_tls)
    (chain : List (Buffer T)) : Option (List (Buffer T)) :=
  reclaim_loop (reclaim_min_id new_buffer.id_ regs) chain

/-- The guarded call `if (unlinked) reclaim_buffers(a);` in
`push_bottom`/`pop_bottom`: a null `unlinked` skips reclamation. -/
def maybe_reclaim {T : Type} (a : Buffer T) (regs : List buffer_tls) :
    List (Buffer T) → Option (List (Buffer T))
  | [] => some []
  | c :: rest => reclaim_buffers a regs (c :: rest)

/-- Model of the `Deque<T>` state: `top`, `bottom`, the current `buffer`,
the owner-private `unlinked` chain (in `next`-pointer order, ending at the
current buffer when non-null) and the reclaimer's registry list. -/
structure DequeState (T : Type) where
  top : Int
  bottom : Int
  buffer : Buffer T
  unlinked : List (Buffer T)
  reclaimer : List buffer_tls

/-- A freshly constructed deque: `top = bottom = 0`, a buffer of
log-capacity `log_initial_size` with id 0, null `unlinked`, empty registry. -/
def freshDeque (T : Type) [Inhabited T] : DequeState T :=
  { top := 0, bottom := 0,
    buffer := Buffer.mk 0 log_initial_size (fun _ => default) none,
    unlinked := [], reclaimer := [] }

/-- `Deque::push_bottom(object)` in sequential semantics.  If
`b - t >= a->size() - 1` the buffer grows (`resize(b, t, 1)`), recording
the old buffer as the head of the unlinked chain if the chain was null;
then, if `unlinked` is non-null, `reclaim_buffers(a)` runs; finally
`a->put(b, object)` and `bottom = b + 1`. -/
def DequeState.push_bottom {T : Type} [Inhabited T] (s : DequeState T) (v : T) :
    Option (DequeState T) :=
  if s.buffer.size - 1 ≤ s.bottom - s.top then
    match maybe_reclaim (s.buffer.resize s.bottom s.top 1).2 s.reclaimer
        ((if s.unlinked.isEmpty then [s.buffer] else s.unlinked) ++
          [(s.buffer.resize s.bottom s.top 1).2]) with
    | none => none
    | some ch =>
        some { s with bottom := s.bottom + 1,
                      buffer := ((s.buffer.resize s.bottom s.top 1).2).put s.bottom v,
                      unlinked := ch }
  else
    match maybe_reclaim s.buffer s.reclaimer s.unlinked with
    | none => none
    | some ch =>
        some { s with bottom := s.bottom + 1,
                      buffer := s.buffer.put s.bottom v,
                      unlinked := ch }

/-- `Deque::pop_bottom()` in sequential semantics.  With `size = b - t`:
`size <= 0` restores `bottom` and returns empty; `size == 1` wins the
uncontended CAS, takes `a->get(t)`, bumps `top` and restores `bottom`;
otherwise the element is `a->get(b - 1)`, the buffer shrinks when
`size <= a->size() / 3` and `size > 1 << log_initial_size`, and a non-null
`unlinked` triggers `reclaim_buffers(a)`. -/
def DequeState.pop_bottom {T : Type} [Inhabited T] (s : DequeState T) :
    Option (Option T × DequeState T) :=
  if s.bottom - s.top ≤ 0 then
    some (none, { s with bottom := s.bottom })
  else if s.bottom - s.top = 1 then
    some (some (s.buffer.get s.top), { s with top := s.top + 1, bottom := s.bottom })
  else if s.bottom - s.top ≤ s.buffer.size / 3 ∧
      (2 : Int) ^ log_initial_size < s.bottom - s.top then
    match maybe_reclaim (s.buffer.resize s.bottom s.top (-1)).2 s.reclaimer
        ((if s.unlinked.isEmpty then [s.buffer] else s.unlinked) ++
          [(s.buffer.resize s.bottom s.top (-1)).2]) with
    | none => none
    | some ch =>
        some (some (s.buffer.get (s.bottom - 1)),
              { s with bottom := s.bottom - 1,
                       buffer := (s.buffer.resize s.bottom s.top (-1)).2,
                       unlinked := ch })
  else
    match maybe_reclaim s.buffer s.reclaimer s.unlinked with
    | none => none
    | some ch =>
        some (some (s.buffer.get (s.bottom - 1)),
              { s with bottom := s.bottom - 1, unlinked := ch })

/-- `Deque::steal()` in sequential semantics with a winning CAS: if
`b - t > 0` return `a->get(t)` and bump `top`, else return empty leaving
the state untouched. -/
def DequeState.steal {T : Type} (s : DequeState T) : Option T × DequeState T :=
  if 0 < s.bottom - s.top then
    (some (s.buffer.get s.top), { s with top := s.top + 1 })
  else
    (none, s)

/-- Iterated `push_bottom` over a list of values. -/
def pushAll {T : Type} [Inhabited T] (s : DequeState T) : List T → Option (DequeState T)
  | [] => some s
  | v :: vs =>
      match s.push_bottom v with
      | none => none
      | some s' => pushAll s' vs

/-- `n` successive `pop_bottom` calls, collecting the returned optionals. -/
def popN {T : Type} [Inhabited T] (s : DequeState T) : Nat → Option (List (Option T) × DequeState T)
  | 0 => some ([], s)
  | n + 1 =>
      match s.pop_bottom with
      | none => none
      | some (r, s') =>
          match popN s' n with
          | none => none
          | some (rs, s'') => some (r :: rs, s'')

/-- `n` successive `steal` calls, collecting the returned optionals. -/
def stealN {T : Type} (s : DequeState T) : Nat → List (Option T) × DequeState T
  | 0 => ([], s)
  | n + 1 =>
      match s.steal with
      | (r, s') =>
          match stealN s' n with
          | (rs, s'') => (r :: rs, s'')

/-! Basic lemmas about `Buffer`. -/

@[simp] theorem Buffer.id_mk {T : Type} (i : Int) (ls : Nat) (seg : Nat → T)
    (nx : Option (Buffer T)) : (Buffer.mk i ls seg nx).id_ = i := rfl

@[simp] theorem Buffer.log_size_mk {T : Type} (i : Int) (ls : Nat) (seg : Nat → T)
    (nx : Option (Buffer T)) : (Buffer.mk i ls seg nx).log_size = ls := rfl

@[simp] theorem Buffer.segment_mk {T : Type} (i : Int) (ls : Nat) (seg : Nat → T)
    (nx : Option (Buffer T)) : (Buffer.mk i ls seg nx).segment = seg := rfl

@[simp] theorem Buffer.next_buffer_mk {T : Type} (i : Int) (ls : Nat) (seg : Nat → T)
    (nx : Option (Buffer T)) : (Buffer.mk i ls seg nx).next_buffer = nx := rfl

@[simp] theorem Buffer.size_mk {T : Type} (i : Int) (ls : Nat) (seg : Nat → T)
    (nx : Option (Buffer T)) : (Buffer.mk i ls seg nx).size = (2 : Int) ^ ls := rfl

theorem Buffer.size_eq {T : Type} (a : Buffer T) : a.size = (2 : Int) ^ a.log_size := rfl

theorem Buffer.size_pos {T : Type} (a : Buffer T) : 0 < a.size := by
  rw [Buffer.size_eq]; positivity

@[simp] theorem Buffer.put_id_ {T : Type} (a : Buffer T) (i : Int) (v : T) :
    (a.put i v).id_ = a.id_ := by cases a; rfl

@[simp] theorem Buffer.put_log_size {T : Type} (a : Buffer T) (i : Int) (v : T) :
    (a.put i v).log_size = a.log_size := by cases a; rfl

@[simp] theorem Buffer.put_size {T : Type} (a : Buffer T) (i : Int) (v : T) :
    (a.put i v).size = a.size := by cases a; rfl

@[simp] theorem Buffer.put_next_buffer {T : Type} (a : Buffer T) (i : Int) (v : T) :
    (a.put i v).next_buffer = a.next_buffer := by cases a; rfl

theorem Buffer.get_put {T : Type} (a : Buffer T) (i j : Int) (v : T) :
    (a.put j v).get i = if i % a.size = j % a.size then v else a.get i := by
  cases a with
  | mk idv ls seg nx =>
      have h1 : 0 ≤ i % (2 : Int) ^ ls := Int.emod_nonneg _ (by positivity)
      have h2 : 0 ≤ j % (2 : Int) ^ ls := Int.emod_nonneg _ (by positivity)
      simp only [Buffer.put, Buffer.get, Buffer.size_mk, Buffer.log_size_mk, Buffer.segment_mk]
      split_ifs with hA hB hB <;> first | rfl | omega

theorem Buffer.get_put_self {T : Type} (a : Buffer T) (i : Int) (v : T) :
    (a.put i v).get i = v := by rw [Buffer.get_put]; simp

theorem Buffer.get_put_of_ne {T : Type} (a : Buffer T) {i j : Int} (v : T)
    (h : i % a.size ≠ j % a.size) : (a.put j v).get i = a.get i := by
  rw [Buffer.get_put, if_neg h]

/-- Two indices strictly less than `S` apart have distinct remainders. -/
theorem emod_ne_of_lt {S x y : Int} (h0 : 0 < y - x) (h1 : y - x < S) :
    x % S ≠ y % S := by
  intro he
  have h2 : (x - y) % S = 0 := Int.emod_eq_emod_iff_emod_sub_eq_zero.mp he
  have h3 : S ∣ x - y := Int.dvd_of_emod_eq_zero h2
  have h4 : S ∣ y - x := by
    rw [show y - x = -(x - y) by ring]
    exact dvd_neg.mpr h3
  exact absurd (Int.le_of_dvd h0 h4) (not_le.mpr h1)

theorem Buffer.copyRange_id_ {T : Type} (src : Buffer T) (n : Nat) :
    ∀ (dst : Buffer T) (t : Int), (Buffer.copyRange src dst t n).id_ = dst.id_ := by
  induction n with
  | zero => intro dst t; rfl
  | succ n ih => intro dst t; simp only [Buffer.copyRange]; rw [ih]; simp

theorem Buffer.copyRange_log_size {T : Type} (src : Buffer T) (n : Nat) :
    ∀ (dst : Buffer T) (t : Int), (Buffer.copyRange src dst t n).log_size = dst.log_size := by
  induction n with
  | zero => intro dst t; rfl
  | succ n ih => intro dst t; simp only [Buffer.copyRange]; rw [ih]; simp

theorem Buffer.copyRange_size {T : Type} (src : Buffer T) (n : Nat)
    (dst : Buffer T) (t : Int) : (Buffer.copyRange src dst t n).size = dst.size := by
  rw [Buffer.size_eq, Buffer.size_eq, Buffer.copyRange_log_size]

theorem Buffer.copyRange_get_of_lt {T : Type} (src : Buffer T) (n : Nat) :
    ∀ (dst : Buffer T) (t i : Int),
      (∀ j : Int, t ≤ j → j < t + n → j % dst.size ≠ i % dst.size) →
      (Buffer.copyRange src dst t n).get i = dst.get i := by
  induction n with
  | zero => intro dst t i _; rfl
  | succ n ih =>
      intro dst t i h
      simp only [Buffer.copyRange]
      rw [ih]
      · exact Buffer.get_put_of_ne dst (src.get t) (h t le_rfl (by omega)).symm
      · intro j hj1 hj2
        rw [Buffer.put_size]
        exact h j (by omega) (by push_cast at hj2 ⊢; omega)

theorem Buffer.copyRange_get_of_mem {T : Type} (src : Buffer T) (n : Nat) :
    ∀ (dst : Buffer T) (t i : Int),
      (n : Int) ≤ dst.size → t ≤ i → i < t + n →
      (Buffer.copyRange src dst t n).get i = src.get i := by
  induction n with
  | zero => intro dst t i _ h2 h3; omega
  | succ n ih =>
      intro dst t i hn h2 h3
      simp only [Buffer.copyRange]
      by_cases hi : i = t
      · subst hi
        rw [Buffer.copyRange_get_of_lt]
        · exact Buffer.get_put_self dst i (src.get i)
        · intro j hj1 hj2
          rw [Buffer.put_size]
          refine (emod_ne_of_lt (x := i) (y := j) (by omega) ?_).symm
          push_cast at hj2 hn
          omega
      · refine ih (dst.put t (src.get t)) (t + 1) i ?_ (by omega) (by push_cast at h3 ⊢; omega)
        rw [Buffer.put_size]
        push_cast at hn ⊢
        omega

/-! Lemmas about `resize`. -/

theorem Buffer.resize_snd_id {T : Type} [Inhabited T] (a : Buffer T) (b t d : Int) :
    ((a.resize b t d).2).id_ = a.id_ + 1 := by
  simp only [Buffer.resize]
  rw [Buffer.copyRange_id_]
  simp

theorem Buffer.resize_snd_log_size {T : Type} [Inhabited T] (a : Buffer T) (b t d : Int) :
    ((a.resize b t d).2).log_size = ((a.log_size : Int) + d).toNat := by
  simp only [Buffer.resize]
  rw [Buffer.copyRange_log_size]
  simp

theorem Buffer.resize_snd_size {T : Type} [Inhabited T] (a : Buffer T) (b t d : Int) :
    ((a.resize b t d).2).size = (2 : Int) ^ (((a.log_size : Int) + d).toNat) := by
  rw [Buffer.size_eq, Buffer.resize_snd_log_size]

theorem Buffer.resize_fst_next {T : Type} [Inhabited T] (a : Buffer T) (b t d : Int) :
    ((a.resize b t d).1).next_buffer = some ((a.resize b t d).2) := by
  cases a
  simp [Buffer.resize, Buffer.with_next]

theorem Buffer.resize_grow_size {T : Type} [Inhabited T] (a : Buffer T) (b t : Int) :
    ((a.resize b t 1).2).size = 2 * a.size := by
  rw [Buffer.resize_snd_size, Buffer.size_eq]
  have h : (((a.log_size : Int) + 1)).toNat = a.log_size + 1 := by omega
  rw [h, pow_succ]
  ring

theorem Buffer.resize_shrink_size {T : Type} [Inhabited T] (a : Buffer T) (b t : Int)
    (h : 1 ≤ a.log_size) : 2 * ((a.resize b t (-1)).2).size = a.size := by
  rw [Buffer.resize_snd_size, Buffer.size_eq]
  have h1 : (((a.log_size : Int) + (-1))).toNat = a.log_size - 1 := by omega
  rw [h1]
  have h2 : a.log_size - 1 + 1 = a.log_size := by omega
  conv_rhs => rw [← h2]
  rw [pow_succ]
  ring

theorem Buffer.resize_get {T : Type} [Inhabited T] (a : Buffer T) {b t i : Int} (d : Int)
    (hfit : b - t ≤ ((a.resize b t d).2).size) (h1 : t ≤ i) (h2 : i < b) :
    ((a.resize b t d).2).get i = a.get i := by
  rw [Buffer.resize_snd_size] at hfit
  simp only [Buffer.resize]
  apply Buffer.copyRange_get_of_mem
  · rw [Buffer.size_mk]
    omega
  · exact h1
  · omega

/-! Lemmas about the reclamation scan and loop. -/

theorem reclaim_min_id_cons (start : Int) (r : buffer_tls) (regs : List buffer_tls) :
    reclaim_min_id start (r :: regs) =
      reclaim_min_id (if r.was_idle then start else min start r.id_last_used) regs := rfl

theorem reclaim_min_id_le (start : Int) (regs : List buffer_tls) :
    reclaim_min_id start regs ≤ start := by
  induction regs generalizing start with
  | nil => exact le_rfl
  | cons r rs ih =>
      rw [reclaim_min_id_cons]
      refine le_trans (ih _) ?_
      split
      · exact le_rfl
      · exact min_le_left _ _

theorem reclaim_min_id_all_idle (start : Int) (regs : List buffer_tls)
    (h : ∀ r ∈ regs, r.was_idle = true) : reclaim_min_id start regs = start := by
  induction regs with
  | nil => rfl
  | cons r rs ih =>
      rw [reclaim_min_id_cons, if_pos (h r (List.mem_cons_self r rs))]
      exact ih fun x hx => h x (List.mem_cons_of_mem r hx)

theorem reclaim_loop_ends {T : Type} {m B : Int} (hB : m ≤ B) :
    ∀ (pre : List (Buffer T)) (lastb : Buffer T), lastb.id_ = B →
      ∃ pre', reclaim_loop m (pre ++ [lastb]) = some (pre' ++ [lastb]) := by
  intro pre
  induction pre with
  | nil =>
      intro lastb hl
      refine ⟨[], ?_⟩
      simp only [List.nil_append, reclaim_loop]
      rw [if_neg (by omega)]
  | cons c rest ih =>
      intro lastb hl
      by_cases hc : c.id_ < m
      · obtain ⟨pre', hp⟩ := ih lastb hl
        exact ⟨pre', by simpa [reclaim_loop, hc] using hp⟩
      · exact ⟨c :: rest, by simp [reclaim_loop, hc]⟩

theorem reclaim_total {T : Type} (nb : Buffer T) (regs : List buffer_tls)
    (pre : List (Buffer T)) {lastb : Buffer T} (hl : lastb.id_ = nb.id_) :
    ∃ pre', reclaim_buffers nb regs (pre ++ [lastb]) = some (pre' ++ [lastb]) := by
  exact reclaim_loop_ends (reclaim_min_id_le nb.id_ regs) pre lastb hl

theorem maybe_reclaim_append {T : Type} (a : Buffer T) (regs : List buffer_tls)
    (pre : List (Buffer T)) (lastb : Buffer T) :
    maybe_reclaim a regs (pre ++ [lastb]) = reclaim_buffers a regs (pre ++ [lastb]) := by
  cases pre with
  | nil => rfl
  | cons c rest => rfl

theorem maybe_reclaim_total {T : Type} (a : Buffer T) (regs : List buffer_tls)
    (pre : List (Buffer T)) {lastb : Buffer T} (hl : lastb.id_ = a.id_) :
    ∃ pre', maybe_reclaim a regs (pre ++ [lastb]) = some (pre' ++ [lastb]) := by
  rw [maybe_reclaim_append]
  exact reclaim_total a regs pre hl

/-! The owner-only representation invariant: the deque state `s` holds the
list `L` of values (oldest, at `top`, first).  The chain disjunct records
that a non-null `unlinked` pointer heads a chain whose final node is the
current buffer, which is how `push_bottom`/`pop_bottom` maintain it. -/

structure DequeInv {T : Type} (s : DequeState T) (L : List T) : Prop where
  top_nonneg : 0 ≤ s.top
  len_eq : s.bottom - s.top = L.length
  len_lt : (L.length : Int) < s.buffer.size
  elems : ∀ (k : Nat) (hk : k < L.length), s.buffer.get (s.top + k) = L[k]
  chain : s.unlinked = [] ∨
    ∃ pre lastb, s.unlinked = pre ++ [lastb] ∧ lastb.id_ = s.buffer.id_

theorem dequeInv_fresh (T : Type) [Inhabited T] : DequeInv (freshDeque T) [] := by
  refine ⟨le_rfl, by simp [freshDeque], ?_, ?_, Or.inl rfl⟩
  · show (0 : Int) < (2 : Int) ^ log_initial_size
    positivity
  · intro k hk
    simp at hk

/-- Writing `v` at index `bottom` extends the represented list by `v`. -/
theorem put_extends {T : Type} (a : Buffer T) (top bottom : Int) (L : List T) (v : T)
    (hlen : bottom - top = L.length) (hfitL : (L.length : Int) < a.size)
    (helem : ∀ (k : Nat) (hk : k < L.length), a.get (top + k) = L[k]) :
    ∀ (k : Nat) (hk : k < (L ++ [v]).length), (a.put bottom v).get (top + k) = (L ++ [v])[k] := by
  intro k hk
  simp only [List.length_append, List.length_cons, List.length_nil] at hk
  by_cases hkl : k < L.length
  · rw [Buffer.get_put, if_neg, helem k hkl]
    · exact (List.getElem_append_left hkl).symm
    · exact emod_ne_of_lt (by omega) (by omega)
  · have hEq : k = L.length := by omega
    subst hEq
    rw [show top + (L.length : Int) = bottom by omega, Buffer.get_put_self]
    exact (List.getElem_concat_length L v L.length rfl (by simp)).symm

theorem push_bottom_inv {T : Type} [Inhabited T] {s : DequeState T} {L : List T} {v : T}
    (h : DequeInv s L) :
    ∃ s', s.push_bottom v = some s' ∧ DequeInv s' (L ++ [v]) ∧
      s'.top = s.top ∧ s'.reclaimer = s.reclaimer := by
  obtain ⟨htop, hlen, hlt, helem, hchain⟩ := h
  have hszpos := Buffer.size_pos s.buffer
  have hlenapp : ((L ++ [v]).length : Int) = (L.length : Int) + 1 := by simp
  by_cases hgrow : s.buffer.size - 1 ≤ s.bottom - s.top
  · -- grow path
    have hnbsize : ((s.buffer.resize s.bottom s.top 1).2).size = 2 * s.buffer.size :=
      Buffer.resize_grow_size s.buffer s.bottom s.top
    have hnbid : ((s.buffer.resize s.bottom s.top 1).2).id_ = s.buffer.id_ + 1 :=
      Buffer.resize_snd_id s.buffer s.bottom s.top 1
    obtain ⟨pre', hrec⟩ := maybe_reclaim_total (s.buffer.resize s.bottom s.top 1).2
      s.reclaimer (if s.unlinked.isEmpty then [s.buffer] else s.unlinked) rfl
    have hpush : s.push_bottom v = some
        { s with bottom := s.bottom + 1,
                 buffer := ((s.buffer.resize s.bottom s.top 1).2).put s.bottom v,
                 unlinked := pre' ++ [(s.buffer.resize s.bottom s.top 1).2] } := by
      simp only [DequeState.push_bottom]
      rw [if_pos hgrow, hrec]
    have helem' : ∀ (k : Nat) (hk : k < L.length),
        ((s.buffer.resize s.bottom s.top 1).2).get (s.top + k) = L[k] := by
      intro k hk
      rw [Buffer.resize_get s.buffer 1 (by omega) (by omega) (by omega)]
      exact helem k hk
    refine ⟨_, hpush, ⟨htop, ?_, ?_, ?_, ?_⟩, rfl, rfl⟩
    · show s.bottom + 1 - s.top = ((L ++ [v]).length : Int)
      omega
    · show ((L ++ [v]).length : Int) < (((s.buffer.resize s.bottom s.top 1).2).put s.bottom v).size
      rw [Buffer.put_size, hnbsize]
      omega
    · exact put_extends _ s.top s.bottom L v hlen (by omega) helem'
    · refine Or.inr ⟨pre', (s.buffer.resize s.bottom s.top 1).2, rfl, ?_⟩
      rw [Buffer.put_id_]
  · -- no-grow path
    have hfit1 : (L.length : Int) + 1 < s.buffer.size := by omega
    rcases hchain with hU | ⟨pre, lastb, hU, hid⟩
    · have hpush : s.push_bottom v = some
          { s with bottom := s.bottom + 1, buffer := s.buffer.put s.bottom v,
                   unlinked := [] } := by
        simp only [DequeState.push_bottom]
        rw [if_neg hgrow, hU]
        rfl
      refine ⟨_, hpush, ⟨htop, by show s.bottom + 1 - s.top = ((L ++ [v]).length : Int); omega,
        ?_, ?_, Or.inl rfl⟩, rfl, rfl⟩
      · show ((L ++ [v]).length : Int) < (s.buffer.put s.bottom v).size
        rw [Buffer.put_size]
        omega
      · exact put_extends _ s.top s.bottom L v hlen (by omega) helem
    · obtain ⟨pre', hrec⟩ := maybe_reclaim_total s.buffer s.reclaimer pre hid
      have hpush : s.push_bottom v = some
          { s with bottom := s.bottom + 1, buffer := s.buffer.put s.bottom v,
                   unlinked := pre' ++ [lastb] } := by
        simp only [DequeState.push_bottom]
        rw [if_neg hgrow, hU, hrec]
      refine ⟨_, hpush, ⟨htop, by show s.bottom + 1 - s.top = ((L ++ [v]).length : Int); omega,
        ?_, ?_, Or.inr ⟨pre', lastb, rfl, ?_⟩⟩, rfl, rfl⟩
      · show ((L ++ [v]).length : Int) < (s.buffer.put s.bottom v).size
        rw [Buffer.put_size]
        omega
      · exact put_extends _ s.top s.bottom L v hlen (by omega) helem
      · rw [Buffer.put_id_]
        exact hid

theorem pop_bottom_inv {T : Type} [Inhabited T] {s : DequeState T} {L : List T} {v : T}
    (h : DequeInv s (L ++ [v])) :
    ∃ s', s.pop_bottom = some (some v, s') ∧ DequeInv s' L := by
  obtain ⟨htop, hlen, hlt, helem, hchain⟩ := h
  have hszpos := Buffer.size_pos s.buffer
  have hsz : s.bottom - s.top = (L.length : Int) + 1 := by
    rw [hlen]; simp
  rw [show ((L ++ [v]).length : Int) = (L.length : Int) + 1 by simp] at hlt
  by_cases hL : L.length = 0
  · -- size = 1: the uncontended CAS branch
    have hL0 : L = [] := List.length_eq_zero.mp hL
    subst hL0
    have hval : s.buffer.get s.top = v := by
      have h0 := helem 0 (by simp)
      rw [show s.top + ((0 : Nat) : Int) = s.top by omega] at h0
      simpa using h0
    have hpop : s.pop_bottom = some (some v,
        { s with top := s.top + 1, bottom := s.bottom }) := by
      simp only [DequeState.pop_bottom]
      rw [if_neg (by omega), if_pos (by omega), hval]
    refine ⟨_, hpop, ⟨by show (0 : Int) ≤ s.top + 1; omega, ?_, ?_, ?_, hchain⟩⟩
    · show s.bottom - (s.top + 1) = (([] : List T).length : Int)
      simp
      omega
    · show ((([] : List T).length : Int)) < s.buffer.size
      simpa using hszpos
    · intro k hk
      simp at hk
  · -- size ≥ 2
    have h2 : 2 ≤ s.bottom - s.top := by omega
    have hval : s.buffer.get (s.bottom - 1) = v := by
      have hv := helem L.length (by simp)
      rw [show s.top + (L.length : Int) = s.bottom - 1 by omega] at hv
      rw [hv]
      exact List.getElem_concat_length L v L.length rfl (by simp)
    by_cases hshrink : s.bottom - s.top ≤ s.buffer.size / 3 ∧
        (2 : Int) ^ log_initial_size < s.bottom - s.top
    · -- shrink path
      have hmul : (s.bottom - s.top) * 3 ≤ s.buffer.size :=
        (Int.le_ediv_iff_mul_le (by norm_num)).mp hshrink.1
      have hls : 1 ≤ s.buffer.log_size := by
        by_contra hc
        have hz : s.buffer.log_size = 0 := by omega
        have h1 : s.buffer.size = 1 := by rw [Buffer.size_eq, hz]; norm_num
        omega
      have hnbsize : 2 * ((s.buffer.resize s.bottom s.top (-1)).2).size = s.buffer.size :=
        Buffer.resize_shrink_size s.buffer s.bottom s.top hls
      have hnbpos := Buffer.size_pos (s.buffer.resize s.bottom s.top (-1)).2
      obtain ⟨pre', hrec⟩ := maybe_reclaim_total (s.buffer.resize s.bottom s.top (-1)).2
        s.reclaimer (if s.unlinked.isEmpty then [s.buffer] else s.unlinked) rfl
      have hpop : s.pop_bottom = some (some v,
          { s with bottom := s.bottom - 1,
                   buffer := (s.buffer.resize s.bottom s.top (-1)).2,
                   unlinked := pre' ++ [(s.buffer.resize s.bottom s.top (-1)).2] }) := by
        simp only [DequeState.pop_bottom]
        rw [if_neg (by omega), if_neg (by omega), if_pos hshrink, hrec, hval]
      refine ⟨_, hpop, ⟨htop, ?_, ?_, ?_, ?_⟩⟩
      · show s.bottom - 1 - s.top = (L.length : Int)
        omega
      · show (L.length : Int) < ((s.buffer.resize s.bottom s.top (-1)).2).size
        omega
      · intro k hk
        show ((s.buffer.resize s.bottom s.top (-1)).2).get (s.top + k) = L[k]
        rw [Buffer.resize_get s.buffer (-1) (by omega) (by omega) (by omega)]
        have he := helem k (by simp; omega)
        rw [he]
        exact List.getElem_append_left hk
      · exact Or.inr ⟨pre', (s.buffer.resize s.bottom s.top (-1)).2, rfl, rfl⟩
    · -- no-shrink path
      rcases hchain with hU | ⟨pre, lastb, hU, hid⟩
      · have hpop : s.pop_bottom = some (some v,
            { s with bottom := s.bottom - 1, unlinked := [] }) := by
          simp only [DequeState.pop_bottom]
          rw [if_neg (by omega), if_neg (by omega), if_neg hshrink, hU, hval]
          rfl
        refine ⟨_, hpop, ⟨htop, by show s.bottom - 1 - s.top = (L.length : Int); omega,
          by show (L.length : Int) < s.buffer.size; omega, ?_, Or.inl rfl⟩⟩
        intro k hk
        show s.buffer.get (s.top + k) = L[k]
        rw [helem k (by simp; omega)]
        exact List.getElem_append_left hk
      · obtain ⟨pre', hrec⟩ := maybe_reclaim_total s.buffer s.reclaimer pre hid
        have hpop : s.pop_bottom = some (some v,
            { s with bottom := s.bottom - 1, unlinked := pre' ++ [lastb] }) := by
          simp only [DequeState.pop_bottom]
          rw [if_neg (by omega), if_neg (by omega), if_neg hshrink, hU, hrec, hval]
        refine ⟨_, hpop, ⟨htop, by show s.bottom - 1 - s.top = (L.length : Int); omega,
          by show (L.length : Int) < s.buffer.size; omega, ?_, Or.inr ⟨pre', lastb, rfl, hid⟩⟩⟩
        intro k hk
        show s.buffer.get (s.top + k) = L[k]
        rw [helem k (by simp; omega)]
        exact List.getElem_append_left hk

theorem steal_inv {T : Type} {s : DequeState T} {v : T} {L : List T}
    (h : DequeInv s (v :: L)) :
    s.steal = (some v, { s with top := s.top + 1 }) ∧
      DequeInv { s with top := s.top + 1 } L := by
  obtain ⟨htop, hlen, hlt, helem, hchain⟩ := h
  have hsz : s.bottom - s.top = (L.length : Int) + 1 := by
    rw [hlen]; simp
  rw [show (((v :: L).length : Int)) = (L.length : Int) + 1 by simp] at hlt
  constructor
  · have hval : s.buffer.get s.top = v := by
      have h0 := helem 0 (by simp)
      rw [show s.top + ((0 : Nat) : Int) = s.top by omega] at h0
      simpa using h0
    simp only [DequeState.steal]
    rw [if_pos (by omega), hval]
  · refine ⟨by show (0 : Int) ≤ s.top + 1; omega,
      by show s.bottom - (s.top + 1) = (L.length : Int); omega,
      by show (L.length : Int) < s.buffer.size; omega, ?_, hchain⟩
    intro k hk
    show s.buffer.get (s.top + 1 + k) = L[k]
    have he := helem (k + 1) (by simp; omega)
    rw [show s.top + ((k + 1 : Nat) : Int) = s.top + 1 + k by push_cast; ring] at he
    rw [he]
    simp

/-- `pop_bottom` on an empty deque (`size <= 0`): returns the empty optional
and restores `bottom`, leaving the state as it was. -/
theorem pop_bottom_empty {T : Type} [Inhabited T] (s : DequeState T)
    (h : s.bottom - s.top ≤ 0) : s.pop_bottom = some (none, s) := by
  simp only [DequeState.pop_bottom]
  rw [if_pos h]

/-- `steal` on an empty deque (`size <= 0`): returns the empty optional and
does not modify the state. -/
theorem steal_empty {T : Type} (s : DequeState T)
    (h : s.bottom - s.top ≤ 0) : s.steal = (none, s) := by
  simp only [DequeState.steal]
  rw [if_neg (by omega)]

theorem popN_zero {T : Type} [Inhabited T] (s : DequeState T) : popN s 0 = some ([], s) := rfl

theorem popN_succ {T : Type} [Inhabited T] (s : DequeState T) (n : Nat) :
    popN s (n + 1) =
      match s.pop_bottom with
      | none => none
      | some (r, s') =>
          match popN s' n with
          | none => none
          | some (rs, s'') => some (r :: rs, s'') := rfl

theorem pushAll_inv {T : Type} [Inhabited T] :
    ∀ (vs : List T) {s : DequeState T} {L : List T}, DequeInv s L →
      ∃ s', pushAll s vs = some s' ∧ DequeInv s' (L ++ vs) ∧ s'.top = s.top := by
  intro vs
  induction vs with
  | nil =>
      intro s L h
      exact ⟨s, rfl, by simpa using h, rfl⟩
  | cons v vs ih =>
      intro s L h
      obtain ⟨s1, hp, h1, ht, hr⟩ := push_bottom_inv h
      obtain ⟨s2, hp2, h2, ht2⟩ := ih h1
      refine ⟨s2, ?_, ?_, by rw [ht2, ht]⟩
      · simp only [pushAll]
        rw [hp]
        exact hp2
      · simpa [List.append_assoc] using h2

theorem popN_inv_succ {T : Type} [Inhabited T] :
    ∀ (L : List T) (s : DequeState T), DequeInv s L →
      ∃ s', popN s (L.length + 1) = some (L.reverse.map some ++ [none], s') := by
  intro L
  induction L using List.reverseRecOn with
  | nil =>
      intro s h
      have h0 : s.bottom - s.top ≤ 0 := by
        have := h.len_eq
        simp at this
        omega
      refine ⟨s, ?_⟩
      simp only [List.length_nil, popN_succ, pop_bottom_empty s h0, popN_zero]
      rfl
  | append_singleton L v ih =>
      intro s h
      obtain ⟨s1, hp, h1⟩ := pop_bottom_inv h
      obtain ⟨s2, hp2⟩ := ih s1 h1
      refine ⟨s2, ?_⟩
      have hlen : (L ++ [v]).length + 1 = (L.length + 1) + 1 := by simp
      rw [hlen, popN_succ, hp]
      simp only [hp2]
      simp [List.reverse_append]

theorem stealN_succ {T : Type} (s : DequeState T) (n : Nat) :
    stealN s (n + 1) =
      match s.steal with
      | (r, s') =>
          match stealN s' n with
          | (rs, s'') => (r :: rs, s'') := rfl

theorem stealN_inv_succ {T : Type} :
    ∀ (L : List T) (s : DequeState T), DequeInv s L →
      ∃ s', stealN s (L.length + 1) = (L.map some ++ [none], s') := by
  intro L
  induction L with
  | nil =>
      intro s h
      have h0 : s.bottom - s.top ≤ 0 := by
        have := h.len_eq
        simp at this
        omega
      refine ⟨s, ?_⟩
      simp only [List.length_nil, stealN_succ, steal_empty s h0]
      rfl
  | cons v L ih =>
      intro s h
      obtain ⟨hs, h1⟩ := steal_inv h
      obtain ⟨s2, h2⟩ := ih _ h1
      refine ⟨s2, ?_⟩
      rw [show (v :: L).length + 1 = (L.length + 1) + 1 by simp, stealN_succ, hs]
      simp only [h2]
      simp

/-- C1: LIFO at the bottom.  For every sequence `vs` of values pushed by the
owner via `push_bottom` with no intervening steal, starting from a fresh
deque, the pushes all succeed and `vs.length + 1` successive `pop_bottom`
calls return exactly the pushed values in reverse push order followed by
the empty optional (so in particular `push 100; pop = some 100; pop = empty`). -/
theorem spec_c1_lifo (vs : List Int) :
    ∃ s' s'', pushAll (freshDeque Int) vs = some s' ∧
      popN s' (vs.length + 1) = some (vs.reverse.map some ++ [none], s'') := by
  obtain ⟨s', hp, hinv, _⟩ := pushAll_inv vs (dequeInv_fresh Int)
  have hinv' : DequeInv s' vs := by simpa using hinv
  obtain ⟨s'', hq⟩ := popN_inv_succ vs s' hinv'
  exact ⟨s', s'', hp, hq⟩

/-- C2: FIFO at the top.  For every sequence `vs` of values pushed by the
owner via `push_bottom`, starting from a fresh deque, `vs.length + 1`
successive uncontended `steal` calls (each CAS succeeding, which is how the
sequential model resolves the CAS) return exactly the pushed values in push
order followed by the empty optional (so in particular
`push 100; steal = some 100; steal = empty`). -/
theorem spec_c2_fifo (vs : List Int) :
    ∃ s' s'', pushAll (freshDeque Int) vs = some s' ∧
      stealN s' (vs.length + 1) = (vs.map some ++ [none], s'') := by
  obtain ⟨s', hp, hinv, _⟩ := pushAll_inv vs (dequeInv_fresh Int)
  have hinv' : DequeInv s' vs := by simpa using hinv
  obtain ⟨s'', hq⟩ := stealN_inv_succ vs s' hinv'
  exact ⟨s', s'', hp, hq⟩

/-- C7: capacity autonomy.  For every list `vs` of values, the `vs.length`
pushes starting from a fresh deque all complete (`push_bottom` growing the
buffer by `resize _ _ 1` whenever `bottom - top >= size - 1`, as its
definition shows); afterwards `bottom - top = vs.length` and for every
`i < vs.length` the current buffer reads back the i-th pushed value at
index `i` (`Buffer.get` masks the index modulo the capacity, so this is
slot `i mod capacity`). -/
theorem spec_c7_capacity (vs : List Int) :
    ∃ s', pushAll (freshDeque Int) vs = some s' ∧
      s'.bottom - s'.top = vs.length ∧
      ∀ (k : Nat) (hk : k < vs.length), s'.buffer.get k = vs[k] := by
  obtain ⟨s', hp, hinv, htop⟩ := pushAll_inv vs (dequeInv_fresh Int)
  have hinv' : DequeInv s' vs := by simpa using hinv
  have ht0 : s'.top = 0 := by rw [htop]; rfl
  refine ⟨s', hp, hinv'.len_eq, ?_⟩
  intro k hk
  have he := hinv'.elems k hk
  rw [ht0] at he
  rw [show ((k : Int)) = 0 + (k : Int) by omega]
  exact he

/-- C8: empty response on empty, with state restored.  Whenever
`bottom - top <= 0`, `pop_bottom` returns the empty optional with `bottom`
restored to its pre-call value (the state is unchanged), and `steal`
returns the empty optional without modifying `top`, `bottom` or the
buffer (the state is unchanged).  In particular, once a state represents
no values, every further pop and steal returns empty. -/
theorem spec_c8_empty (s : DequeState Int) (h : s.bottom - s.top ≤ 0) :
    s.pop_bottom = some (none, s) ∧ s.steal = (none, s) :=
  ⟨pop_bottom_empty s h, steal_empty s h⟩

/-- C8, witness: the general empty-response theorem applied to the fresh
deque, whose `bottom - top` is `0`. -/
theorem spec_c8_empty_witness :
    (freshDeque Int).pop_bottom = some (none, freshDeque Int) ∧
      (freshDeque Int).steal = (none, freshDeque Int) :=
  spec_c8_empty (freshDeque Int) (by decide)


theorem reclaim_loop_eq_dropWhile {T : Type} (m : Int) :
    ∀ chain : List (Buffer T), (∃ c ∈ chain, m ≤ c.id_) →
      reclaim_loop m chain = some (chain.dropWhile (fun c => decide (c.id_ < m))) := by
  intro chain
  induction chain with
  | nil => intro h; simp at h
  | cons c rest ih =>
      intro h
      rw [List.dropWhile_cons]
      by_cases hc : c.id_ < m
      · have hrest : ∃ x ∈ rest, m ≤ x.id_ := by
          obtain ⟨x, hx, hxm⟩ := h
          rcases List.mem_cons.mp hx with rfl | hx'
          · omega
          · exact ⟨x, hx', hxm⟩
        simp only [reclaim_loop, if_pos hc, decide_eq_true hc, if_true]
        exact ih hrest
      · simp [reclaim_loop, hc]

theorem dropWhile_eq_filter_sorted {T : Type} (m : Int) :
    ∀ chain : List (Buffer T), chain.Pairwise (fun x y => x.id_ < y.id_) →
      chain.dropWhile (fun c => decide (c.id_ < m)) =
        chain.filter (fun c => decide (m ≤ c.id_)) := by
  intro chain
  induction chain with
  | nil => intro _; rfl
  | cons c rest ih =>
      intro h
      rw [List.pairwise_cons] at h
      obtain ⟨hall, hrest⟩ := h
      rw [List.dropWhile_cons, List.filter_cons]
      by_cases hc : c.id_ < m
      · have h1 : ¬ m ≤ c.id_ := by omega
        simp only [decide_eq_true hc, if_true, decide_eq_false h1, Bool.false_eq_true, if_false]
        exact ih hrest
      · have h1 : m ≤ c.id_ := by omega
        simp only [decide_eq_false hc, Bool.false_eq_true, if_false, decide_eq_true h1, if_true]
        have hfull : rest.filter (fun x => decide (m ≤ x.id_)) = rest := by
          rw [List.filter_eq_self]
          intro a ha
          have := hall a ha
          simp
          omega
        rw [hfull]

theorem reclaim_loop_mem {T : Type} {m : Int} {nb : Buffer T} (hm : m ≤ nb.id_) :
    ∀ chain : List (Buffer T), nb ∈ chain →
      ∃ l, reclaim_loop m chain = some l ∧ l ≠ [] ∧ nb ∈ l := by
  intro chain
  induction chain with
  | nil => intro h; simp at h
  | cons c rest ih =>
      intro h
      by_cases hc : c.id_ < m
      · have hmem : nb ∈ rest := by
          rcases List.mem_cons.mp h with rfl | h'
          · omega
          · exact h'
        obtain ⟨l, h1, h2, h3⟩ := ih hmem
        exact ⟨l, by simp only [reclaim_loop, if_pos hc]; exact h1, h2, h3⟩
      · exact ⟨c :: rest, by simp [reclaim_loop, hc], by simp, h⟩

theorem reclaim_loop_all_lt {T : Type} {m : Int} :
    ∀ pre : List (Buffer T), (∀ c ∈ pre, c.id_ < m) →
      ∀ rest, reclaim_loop m (pre ++ rest) = reclaim_loop m rest := by
  intro pre
  induction pre with
  | nil => intro _ rest; rfl
  | cons c pre' ih =>
      intro h rest
      have hc : c.id_ < m := h c (List.mem_cons_self c pre')
      rw [List.cons_append]
      simp only [reclaim_loop, if_pos hc]
      exact ih (fun x hx => h x (List.mem_cons_of_mem c hx)) rest

/-- C3: `reclaim_buffers(new_buffer)` frees exactly the chained buffers with
id strictly below `min_id` and advances `unlinked` to the first survivor.
With `min_id` the minimum of `new_buffer.id` and of `id_last_used` over the
non-idle registry records (`reclaim_min_id`), and for a chain in
`next`-order (ids strictly increasing, as resizing constructs it) that
still contains a buffer with id at least `min_id`, the surviving chain is
exactly the ordered sublist of buffers with `min_id ≤ id`; the freed ones
are exactly those with `id < min_id`, and the new `unlinked` heads the
survivors. -/
theorem spec_c3_reclaim (nb : Buffer Int) (regs : List buffer_tls)
    (chain : List (Buffer Int))
    (hsorted : chain.Pairwise (fun x y => x.id_ < y.id_))
    (hsurv : ∃ c ∈ chain, reclaim_min_id nb.id_ regs ≤ c.id_) :
    reclaim_buffers nb regs chain =
      some (chain.filter (fun c => decide (reclaim_min_id nb.id_ regs ≤ c.id_))) := by
  unfold reclaim_buffers
  rw [reclaim_loop_eq_dropWhile (reclaim_min_id nb.id_ regs) chain hsurv,
    dropWhile_eq_filter_sorted (reclaim_min_id nb.id_ regs) chain hsorted]

def c3buf0 : Buffer Int := Buffer.mk 0 4 (fun _ => 0) none

def c3buf1 : Buffer Int := Buffer.mk 1 5 (fun _ => 0) none

def c3buf2 : Buffer Int := Buffer.mk 2 6 (fun _ => 0) none

def c3regs : List buffer_tls :=
  [{ id_last_used := 1, was_idle := false }, { id_last_used := 0, was_idle := true }]

/-- C3, witness: a chain with ids 0, 1, 2, a non-idle thief with
`id_last_used = 1` and an idle one; `min_id = 1`, so the buffer with id 0
is freed and the survivors are those with ids 1 and 2. -/
theorem spec_c3_reclaim_witness :
    reclaim_buffers c3buf2 c3regs [c3buf0, c3buf1, c3buf2] =
      some (([c3buf0, c3buf1, c3buf2]).filter
        (fun c => decide (reclaim_min_id c3buf2.id_ c3regs ≤ c.id_))) :=
  spec_c3_reclaim c3buf2 c3regs [c3buf0, c3buf1, c3buf2] (by decide) (by decide)

/-- C9: the final reclamation loop never dereferences a null pointer and
never frees `new_buffer` itself, provided `new_buffer` is in the chain
reachable from `unlinked` with the maximal id there: since
`min_id <= new_buffer.id`, the loop stops at a non-null node, and the
surviving chain is non-empty and still contains `new_buffer`. -/
theorem spec_c9_safety (nb : Buffer Int) (regs : List buffer_tls)
    (chain : List (Buffer Int)) (hmem : nb ∈ chain)
    (_hmax : ∀ c ∈ chain, c.id_ ≤ nb.id_) :
    ∃ l, reclaim_buffers nb regs chain = some l ∧ l ≠ [] ∧ nb ∈ l :=
  reclaim_loop_mem (reclaim_min_id_le nb.id_ regs) chain hmem

def c9buf0 : Buffer Int := Buffer.mk 0 4 (fun _ => 0) none

def c9buf1 : Buffer Int := Buffer.mk 1 5 (fun _ => 0) none

/-- C9, witness: a two-buffer chain with `new_buffer` last; the result is
non-null and keeps `new_buffer`. -/
theorem spec_c9_safety_witness :
    ∃ l, reclaim_buffers c9buf1 [] [c9buf0, c9buf1] = some l ∧ l ≠ [] ∧ c9buf1 ∈ l :=
  spec_c9_safety c9buf1 [] [c9buf0, c9buf1]
    (List.mem_cons_of_mem _ (List.mem_cons_self _ _)) (by decide)

def c4buf0 : Buffer Int := Buffer.mk 0 4 (fun _ => 0) none

def c4buf1 : Buffer Int := Buffer.mk 1 5 (fun _ => 0) none

def c4regs : List buffer_tls := [{ id_last_used := 0, was_idle := true }]

/-- C4, counterexample: a state after a resize (`unlinked` non-null, chain
holding the superseded buffer with id 0 followed by the current buffer
with id 1) in which the only registered thief record has `was_idle = true`.
The claim says `reclaim_buffers` with the current buffer leaves `unlinked`
empty (null); the code instead leaves `unlinked` pointing at the current
buffer: the result is `some [c4buf1]`, which is not an empty chain. -/
theorem spec_c4_counterexample :
    reclaim_buffers c4buf1 c4regs [c4buf0, c4buf1] = some [c4buf1] ∧
      reclaim_buffers c4buf1 c4regs [c4buf0, c4buf1] ≠ some [] := by
  constructor
  · rfl
  · intro h
    have h1 : reclaim_buffers c4buf1 c4regs [c4buf0, c4buf1] = some [c4buf1] := rfl
    rw [h1] at h
    simp at h

/-- C4, amended: after a resize, if every registered thief record has
`was_idle = true`, then `reclaim_buffers` with the current buffer frees
every strictly older chained buffer, and `unlinked` ends up pointing at
the current buffer itself (a one-element chain, never the null pointer, as
the destructor's `unlinked != b` test also expects). -/
theorem spec_c4_progress (cur : Buffer Int) (regs : List buffer_tls)
    (pre : List (Buffer Int))
    (hidle : ∀ r ∈ regs, r.was_idle = true)
    (hpre : ∀ c ∈ pre, c.id_ < cur.id_) :
    reclaim_buffers cur regs (pre ++ [cur]) = some [cur] := by
  unfold reclaim_buffers
  rw [reclaim_min_id_all_idle cur.id_ regs hidle,
    reclaim_loop_all_lt pre hpre [cur]]
  simp [reclaim_loop]

/-- C4, witness for the amended claim: the chain of ids 0 then 1 with an
idle registry collapses to the current buffer alone. -/
theorem spec_c4_progress_witness :
    reclaim_buffers c4buf1 c4regs ([c4buf0] ++ [c4buf1]) = some [c4buf1] :=
  spec_c4_progress c4buf1 c4regs [c4buf0] (by decide) (by decide)

/-- C10: `register_thread` creates a thief record with `was_idle = true`
and `id_last_used = 0` and pushes it at the head of the registry list
(`Stealer` construction and cloning call exactly this).  Because the
record is idle, the reclamation scan skips it: `reclaim_min_id` is
unchanged, hence so is the whole of `reclaim_buffers` — registering
thieves that never steal does not lower `min_id` nor delay reclamation. -/
theorem spec_c10_register (regs : List buffer_tls) (x : Int) (nb : Buffer Int)
    (chain : List (Buffer Int)) :
    register_thread regs = { id_last_used := 0, was_idle := true } :: regs ∧
    reclaim_min_id x (register_thread regs) = reclaim_min_id x regs ∧
    reclaim_buffers nb (register_thread regs) chain = reclaim_buffers nb regs chain := by
  refine ⟨rfl, rfl, ?_⟩
  unfold reclaim_buffers
  have h : reclaim_min_id nb.id_ (register_thread regs) = reclaim_min_id nb.id_ regs := rfl
  rw [h]

theorem pow_log_initial : (2 : Int) ^ log_initial_size = 16 := by
  norm_num [log_initial_size]

/-- C5, amended: `pop_bottom` performs a shrink (`resize _ _ (-1)`, storing
the new buffer, whose id is the old id plus one and whose capacity is half
the old) exactly when the size `bottom - top` is at most `capacity / 3`
AND the size itself exceeds the initial capacity `2 ^ 4 = 16` (the code
tests `size > 1 << log_initial_size`, not the capacity); otherwise the
buffer pointer is unchanged.  Stated for states with a null `unlinked`
chain (so that the reclamation call is the trivial one). -/
theorem spec_c5_shrink (s : DequeState Int) (hU : s.unlinked = []) :
    ∃ r s', s.pop_bottom = some (r, s') ∧
      ((s.bottom - s.top ≤ s.buffer.size / 3 ∧
          (2 : Int) ^ log_initial_size < s.bottom - s.top) →
        (s'.buffer.id_ = s.buffer.id_ + 1 ∧ 2 * s'.buffer.size = s.buffer.size)) ∧
      (¬(s.bottom - s.top ≤ s.buffer.size / 3 ∧
          (2 : Int) ^ log_initial_size < s.bottom - s.top) →
        s'.buffer = s.buffer) := by
  have h16 := pow_log_initial
  by_cases h1 : s.bottom - s.top ≤ 0
  · refine ⟨none, s, pop_bottom_empty s h1, ?_, fun _ => rfl⟩
    intro hcond
    omega
  · by_cases h2 : s.bottom - s.top = 1
    · refine ⟨some (s.buffer.get s.top), { s with top := s.top + 1, bottom := s.bottom }, ?_, ?_, fun _ => rfl⟩
      · simp only [DequeState.pop_bottom]
        rw [if_neg h1, if_pos h2]
      · intro hcond
        omega
    · by_cases h3 : s.bottom - s.top ≤ s.buffer.size / 3 ∧
          (2 : Int) ^ log_initial_size < s.bottom - s.top
      · -- shrink happens
        have hmul : (s.bottom - s.top) * 3 ≤ s.buffer.size :=
          (Int.le_ediv_iff_mul_le (by norm_num)).mp h3.1
        have hszpos := Buffer.size_pos s.buffer
        have hls : 1 ≤ s.buffer.log_size := by
          by_contra hc
          have hz : s.buffer.log_size = 0 := by omega
          have hone : s.buffer.size = 1 := by rw [Buffer.size_eq, hz]; norm_num
          omega
        obtain ⟨pre', hrec⟩ := maybe_reclaim_total (s.buffer.resize s.bottom s.top (-1)).2
          s.reclaimer (if s.unlinked.isEmpty then [s.buffer] else s.unlinked) rfl
        refine ⟨some (s.buffer.get (s.bottom - 1)),
          { s with bottom := s.bottom - 1,
                   buffer := (s.buffer.resize s.bottom s.top (-1)).2,
                   unlinked := pre' ++ [(s.buffer.resize s.bottom s.top (-1)).2] },
          ?_, ?_, fun hn => absurd h3 hn⟩
        · simp only [DequeState.pop_bottom]
          rw [if_neg h1, if_neg h2, if_pos h3, hrec]
        · intro _
          constructor
          · show ((s.buffer.resize s.bottom s.top (-1)).2).id_ = s.buffer.id_ + 1
            exact Buffer.resize_snd_id s.buffer s.bottom s.top (-1)
          · show 2 * ((s.buffer.resize s.bottom s.top (-1)).2).size = s.buffer.size
            exact Buffer.resize_shrink_size s.buffer s.bottom s.top hls
      · -- no shrink
        refine ⟨some (s.buffer.get (s.bottom - 1)),
          { s with bottom := s.bottom - 1, unlinked := [] },
          ?_, fun hc => absurd hc h3, fun _ => rfl⟩
        simp only [DequeState.pop_bottom]
        rw [if_neg h1, if_neg h2, if_neg h3, hU]
        rfl

def c5state : DequeState Int :=
  { top := 0, bottom := 10, buffer := Buffer.mk 0 5 (fun _ => 0) none,
    unlinked := [], reclaimer := [] }

/-- The id of the buffer held after a `pop_bottom`, when the call returns. -/
def popped_buffer_id (s : DequeState Int) : Option Int :=
  s.pop_bottom.map fun p => p.2.buffer.id_

/-- C5, counterexample: a deque with `top = 0`, `bottom = 10` and capacity
32.  The claim's condition holds (`size = 10 ≤ 32 / 3 = 10` and the
capacity 32 exceeds the initial capacity 16), so the claim predicts a
shrink storing a new buffer (id `0 + 1`); but the code tests
`size > 1 << log_initial_size`, i.e. `10 > 16`, which fails, and the
buffer is left unchanged with id 0. -/
theorem spec_c5_counterexample :
    c5state.bottom - c5state.top ≤ c5state.buffer.size / 3 ∧
    (2 : Int) ^ log_initial_size < c5state.buffer.size ∧
    popped_buffer_id c5state = some c5state.buffer.id_ ∧
    popped_buffer_id c5state ≠ some (c5state.buffer.id_ + 1) := by
  refine ⟨by decide, by decide, by decide, by decide⟩

def c5wstate : DequeState Int :=
  { top := 0, bottom := 18, buffer := Buffer.mk 0 6 (fun _ => 0) none,
    unlinked := [], reclaimer := [] }

/-- C5, witness for the amended claim: at `top = 0`, `bottom = 18`,
capacity 64, the shrink condition `18 ≤ 64 / 3 = 21` and `18 > 16` holds,
and the theorem yields the post-state description. -/
theorem spec_c5_shrink_witness :
    ∃ r s', c5wstate.pop_bottom = some (r, s') ∧
      ((c5wstate.bottom - c5wstate.top ≤ c5wstate.buffer.size / 3 ∧
          (2 : Int) ^ log_initial_size < c5wstate.bottom - c5wstate.top) →
        (s'.buffer.id_ = c5wstate.buffer.id_ + 1 ∧
          2 * s'.buffer.size = c5wstate.buffer.size)) ∧
      (¬(c5wstate.bottom - c5wstate.top ≤ c5wstate.buffer.size / 3 ∧
          (2 : Int) ^ log_initial_size < c5wstate.bottom - c5wstate.top) →
        s'.buffer = c5wstate.buffer) :=
  spec_c5_shrink c5wstate rfl

/-- C6: `resize(b, t, delta)` for `delta` in (+1, -1), `t <= b` and
`b - t` at most the new capacity `2 ^ (log_size + delta)`: the returned
buffer has that capacity and id `id_ + 1`, the original buffer's `next`
pointer is set to the returned buffer, and every index `i` in `[t, b)`
reads back (via `get`, which masks the index modulo the capacity) the same
element as in the original buffer.  The exponent is written with `toNat`
because `log_size` is a natural number in the model; the hypothesis
`0 ≤ log_size + delta` makes it the mathematical `log_size + delta`. -/
theorem spec_c6_resize (a : Buffer Int) (b t delta : Int)
    (_hdelta : delta = 1 ∨ delta = -1)
    (_hnonneg : 0 ≤ (a.log_size : Int) + delta)
    (_htb : t ≤ b)
    (hfit : b - t ≤ (2 : Int) ^ (((a.log_size : Int) + delta).toNat)) :
    ((a.resize b t delta).2).size = (2 : Int) ^ (((a.log_size : Int) + delta).toNat) ∧
    ((a.resize b t delta).2).id_ = a.id_ + 1 ∧
    ((a.resize b t delta).1).next_buffer = some ((a.resize b t delta).2) ∧
    ∀ i : Int, t ≤ i → i < b → ((a.resize b t delta).2).get i = a.get i := by
  refine ⟨Buffer.resize_snd_size a b t delta, Buffer.resize_snd_id a b t delta,
    Buffer.resize_fst_next a b t delta, ?_⟩
  intro i h1 h2
  exact Buffer.resize_get a delta (by rw [Buffer.resize_snd_size]; exact hfit) h1 h2

def c6buf : Buffer Int := Buffer.mk 5 4 (fun _ => 0) none

/-- C6, witness: growing a capacity-16 buffer with id 5 holding indices
`[0, 10)` to capacity 32. -/
theorem spec_c6_resize_witness :
    ((c6buf.resize 10 0 1).2).size = (2 : Int) ^ (((c6buf.log_size : Int) + 1).toNat) ∧
    ((c6buf.resize 10 0 1).2).id_ = c6buf.id_ + 1 ∧
    ((c6buf.resize 10 0 1).1).next_buffer = some ((c6buf.resize 10 0 1).2) ∧
    ∀ i : Int, 0 ≤ i → i < 10 → ((c6buf.resize 10 0 1).2).get i = c6buf.get i :=
  spec_c6_resize c6buf 10 0 1 (Or.inl rfl) (by decide) (by decide) (by decide)
